import Mathlib

/-!
Verification of the PortfolioLT paper-trading engine (src/app.py).

Shallow embedding conventions:
* a CSV row of transactions.csv becomes the structure `Tx`;
* calendar dates are day ordinals (`Nat`), the business-day grid `all_days`
  is a list of such ordinals;
* `float` amounts are modelled as rationals (`ℚ`), so the algebraic shape of
  each formula is captured exactly;
* a pandas `NaN` cell is modelled as `none : Option ℚ`; arithmetic on such
  cells propagates `none` exactly as `NaN` propagates;
* a `yfinance` history for one ticker becomes `Hist` (close, dividend and
  split events by date), and the dict returned by `fetch_history` becomes an
  association list `List (String × Hist)`.
-/

namespace PortfolioLT

/-- One row of `transactions.csv`: columns
`date, portfolio, ticker, side, quantity, price, fee`. -/
structure Tx where
  date : Nat
  portfolio : String
  ticker : String
  side : String
  quantity : ℚ
  price : ℚ
  fee : ℚ
deriving Repr, DecidableEq

/-- `append_transaction` (src/app.py:68-71): loads the ledger, concatenates the
one new row, writes it back.  No field of the row is inspected. -/
def append_transaction (ledger : List Tx) (row : Tx) : List Tx :=
  ledger ++ [row]

/-- The signed quantity column of `build_signed_trades` (src/app.py:107):
`np.where(side == "BUY", quantity, -quantity)`. -/
def signed_qty (t : Tx) : ℚ :=
  if t.side = "BUY" then t.quantity else -t.quantity

/-- The cash-flow column of `build_signed_trades` (src/app.py:109):
`np.where(side == "BUY", -quantity*price, quantity*price) - fee`. -/
def cash_flow (t : Tx) : ℚ :=
  (if t.side = "BUY" then -(t.quantity * t.price) else t.quantity * t.price) - t.fee

/-- Cumulative signed share count of a (portfolio, ticker) over a whole
ledger: the quantity the app would report as held after these rows. -/
def position_after (ledger : List Tx) (pf tkr : String) : ℚ :=
  ((ledger.filter (fun t => t.portfolio == pf && t.ticker == tkr)).map signed_qty).sum

/-- The `groupby(["date","portfolio","ticker"])["signed_qty"].sum()` step of
`daily_positions_from_trades` (src/app.py:120): total signed quantity of the
trades of (pf, tkr) dated exactly `d`. -/
def daily_signed_qty (trades : List Tx) (pf tkr : String) (d : Nat) : ℚ :=
  ((trades.filter (fun t => t.portfolio == pf && t.ticker == tkr && t.date == d)).map signed_qty).sum

/-- `daily_positions_from_trades` (src/app.py:112-125), read at grid day `d`:
the pivot is reindexed on `all_days` (so a date outside the grid is dropped)
and then cumulatively summed, which at day `d` is the sum of the daily signed
quantities over the grid days `≤ d`. -/
def daily_positions (trades : List Tx) (all_days : List Nat) (pf tkr : String) (d : Nat) : ℚ :=
  ((all_days.filter (fun e => e ≤ d)).map (fun e => daily_signed_qty trades pf tkr e)).sum

/-- One ticker's `yfinance` history (src/app.py:76-90): the `Close`,
`Dividends` and `Stock Splits` columns, each a list of (date, value) cells.
`fetch_history` keeps only tickers with a non-empty history, so a ticker may
simply be absent from the association list below. -/
structure Hist where
  close : List (Nat × ℚ)
  dividends : List (Nat × ℚ)
  splits : List (Nat × ℚ)
deriving Repr, DecidableEq

/-- `tkr in histories` / `histories[tkr]` on the dict of `fetch_history`. -/
def getHist (histories : List (String × Hist)) (tkr : String) : Option Hist :=
  (histories.find? (fun h => h.1 == tkr)).map Prod.snd

/-- Value of a dataframe column at a date of its index (`none` = no row). -/
def cellAt (col : List (Nat × ℚ)) (d : Nat) : Option ℚ :=
  (col.find? (fun c => c.1 == d)).map Prod.snd

/-- The split multiplier of `apply_splits_to_shares` (src/app.py:144-148) in
effect at day `d`: starting from `1.0`, each split event `(D, F)` with `F > 0`
multiplies `mult.loc[D:]` by `F` — but only `if D in mult.index`, i.e. only
when `D` lies on the grid.  At day `d` this is the product of the factors of
the events with `F > 0`, `D ∈ all_days` and `D ≤ d`. -/
def split_mult (all_days : List Nat) (splits : List (Nat × ℚ)) (d : Nat) : ℚ :=
  ((splits.filter
      (fun s => decide (0 < s.2) && all_days.contains s.1 && decide (s.1 ≤ d))).map
    Prod.snd).prod

/-- `apply_splits_to_shares` (src/app.py:127-150), read at column (pf, tkr)
and grid day `d`: a ticker without history is left untouched, otherwise the
raw share count is multiplied by the split multiplier at `d`. -/
def apply_splits_to_shares (histories : List (String × Hist)) (all_days : List Nat)
    (shares : String → String → Nat → ℚ) (pf tkr : String) (d : Nat) : ℚ :=
  match getHist histories tkr with
  | none => shares pf tkr d
  | some h => shares pf tkr d * split_mult all_days h.splits d

/-- `s.reindex(all_days).ffill()` on a close column (src/app.py:205-206): at
day `d` the value is the close of the last grid day `≤ d` carrying a close
(`none` = NaN when no grid day `≤ d` has one).  Closes dated off the grid are
dropped by the reindex before the forward fill. -/
def ffill_close (all_days : List Nat) (close : List (Nat × ℚ)) (d : Nat) : Option ℚ :=
  ((all_days.filter (fun e => e ≤ d)).filterMap (fun e => cellAt close e)).getLast?

/-- `NaN` propagation of pandas addition on possibly-missing cells. -/
def nanAdd : Option ℚ → Option ℚ → Option ℚ
  | some a, some b => some (a + b)
  | _, _ => none

/-- `NaN` propagation of `qty * price` when the price cell may be missing
(in numpy `0.0 * NaN` is still `NaN`). -/
def nanSMul (q : ℚ) : Option ℚ → Option ℚ
  | some p => some (q * p)
  | none => none

/-- `portfolio_value_series` (src/app.py:193-215), read at portfolio `pf` and
grid day `d`: starting from `0.0`, every shares column `(pf, tkr)` whose
ticker has a history adds `qty * price` where the price is the forward-filled
close; a ticker without history is skipped (`continue`). -/
def portfolio_value_series (columns : List (String × String))
    (histories : List (String × Hist)) (all_days : List Nat)
    (shares_adj : String → String → Nat → ℚ) (pf : String) (d : Nat) : Option ℚ :=
  columns.foldl
    (fun acc c =>
      if c.1 = pf then
        match getHist histories c.2 with
        | none => acc
        | some h => nanAdd acc (nanSMul (shares_adj c.1 c.2 d) (ffill_close all_days h.close d))
      else acc)
    (some 0)

/-- `dividends_cashflows` (src/app.py:168-191), read at portfolio `pf` and day
`d`: starting from `0.0`, every shares column `(pf, tkr)` whose ticker has a
history adds, for each dividend event `(d, dps)` with `dps > 0` and `d` on the
grid, `qty * dps` where `qty` is the split-adjusted share count at `d` —
provided `qty > 0`. -/
def dividends_cashflows (columns : List (String × String))
    (histories : List (String × Hist)) (all_days : List Nat)
    (shares_adj : String → String → Nat → ℚ) (pf : String) (d : Nat) : ℚ :=
  columns.foldl
    (fun acc c =>
      if c.1 = pf then
        match getHist histories c.2 with
        | none => acc
        | some h =>
          acc +
            ((h.dividends.filter
                (fun e => decide (0 < e.2) && e.1 == d && all_days.contains d)).map
              (fun e =>
                let q := shares_adj c.1 c.2 d
                if 0 < q then q * e.2 else 0)).sum
      else acc)
    0

/-- One column of `benchmark_series` (src/app.py:217-230): `none` when the
benchmark has no history or its forward-filled close has no value on the grid
(the column is skipped — "returns empty"); otherwise the function mapping day
`d` to `s(d) / base * 100` where `s` is the forward-filled close and `base`
its first value on the grid. -/
def benchmark_col (histories : List (String × Hist)) (all_days : List Nat)
    (b : String) : Option (Nat → Option ℚ) :=
  match getHist histories b with
  | none => none
  | some h =>
    match (all_days.filterMap (fun e => cellAt h.close e)).head? with
    | none => none
    | some base => some (fun d => (ffill_close all_days h.close d).map (fun v => v / base * 100))

/-- Modelled from the spec (claim C3's reading): the cumulative signed share
count over ALL trades of (pf, tkr) dated `≤ d`, whether or not the trade's
date lies on the daily grid. -/
def spec_cumulative_signed (trades : List Tx) (pf tkr : String) (d : Nat) : ℚ :=
  ((trades.filter
      (fun t => t.portfolio == pf && t.ticker == tkr && decide (t.date ≤ d))).map
    signed_qty).sum

/-- Modelled from the spec (claim C5's reading): the split multiplier from all
split events with factor `> 0` dated `≤ d`, whether or not the event's date
lies on the daily grid. -/
def spec_split_mult (splits : List (Nat × ℚ)) (d : Nat) : ℚ :=
  ((splits.filter (fun s => decide (0 < s.2) && decide (s.1 ≤ d))).map Prod.snd).prod

/-! ### Helper lemmas -/

theorem position_after_append_self (ledger : List Tx) (row : Tx) :
    position_after (ledger ++ [row]) row.portfolio row.ticker
      = position_after ledger row.portfolio row.ticker + signed_qty row := by
  simp [position_after, List.filter_append]

theorem sum_map_add {α : Type} (l : List α) (f g : α → ℚ) :
    (l.map (fun x => f x + g x)).sum = (l.map f).sum + (l.map g).sum := by
  induction l with
  | nil => simp
  | cons a t ih => simp only [List.map_cons, List.sum_cons, ih]; ring

/-! ### C2 -/

/-- C2: for every trade row, the derived signed cash flow is
`-quantity*price - fee` when the side is BUY and `+quantity*price - fee`
when the side is SELL. -/
theorem c2_cash_flow_formula (t : Tx) :
    (t.side = "BUY" → cash_flow t = -(t.quantity * t.price) - t.fee) ∧
    (t.side = "SELL" → cash_flow t = t.quantity * t.price - t.fee) := by
  constructor <;> intro h <;> simp [cash_flow, h]

/-- Witness for C2 at a BUY and a SELL of 2 shares at price 3 with fee 1. -/
theorem c2_cash_flow_formula_witness :
    cash_flow ⟨1, "P", "A", "BUY", 2, 3, 1⟩ = -(2 * 3) - 1 ∧
    cash_flow ⟨1, "P", "A", "SELL", 2, 3, 1⟩ = 2 * 3 - 1 :=
  ⟨(c2_cash_flow_formula ⟨1, "P", "A", "BUY", 2, 3, 1⟩).1 rfl,
   (c2_cash_flow_formula ⟨1, "P", "A", "SELL", 2, 3, 1⟩).2 rfl⟩

/-! ### C10 -/

/-- C10: `build_signed_trades` tests only `side == "BUY"`, so every row whose
side is not exactly `"BUY"` — including an unrecognized string such as a
cash-movement or dividend kind — is treated as a sell: signed quantity
`-quantity` and cash flow `+quantity*price - fee`. -/
theorem c10_non_buy_treated_as_sell (t : Tx) (h : t.side ≠ "BUY") :
    signed_qty t = -t.quantity ∧ cash_flow t = t.quantity * t.price - t.fee := by
  simp [signed_qty, cash_flow, h]

/-- Witness for C10 at a row with the unrecognized side `"DIVIDEND"`. -/
theorem c10_non_buy_treated_as_sell_witness :
    signed_qty ⟨1, "P", "A", "DIVIDEND", 7, 2, 1⟩ = -7 ∧
    cash_flow ⟨1, "P", "A", "DIVIDEND", 7, 2, 1⟩ = 7 * 2 - 1 :=
  c10_non_buy_treated_as_sell ⟨1, "P", "A", "DIVIDEND", 7, 2, 1⟩ (by decide)

/-! ### C1 -/

/-- C1 counterexample: appending a SELL of 5 AAPL to the empty ledger is not
rejected — the ledger changes — and the resulting (chronologically sorted,
single-row) ledger has cumulative signed share count −5 < 0 for
(Conservateur, AAPL). -/
theorem c1_sell_not_rejected :
    append_transaction [] ⟨1, "Conservateur", "AAPL", "SELL", 5, 10, 0⟩ ≠ [] ∧
    position_after (append_transaction [] ⟨1, "Conservateur", "AAPL", "SELL", 5, 10, 0⟩)
      "Conservateur" "AAPL" < 0 := by
  constructor
  · simp [append_transaction]
  · simp +decide [position_after, append_transaction, signed_qty]

/-- C1 amended: `append_transaction` performs no position check at all — a
SELL whose quantity exceeds the shares held for its (portfolio, ticker) is
persisted anyway (the ledger grows by one row) and drives the cumulative
signed share count of that (portfolio, ticker) negative. -/
theorem c1_amended_oversell_persisted (ledger : List Tx) (row : Tx)
    (hside : row.side = "SELL")
    (hover : position_after ledger row.portfolio row.ticker < row.quantity) :
    (append_transaction ledger row).length = ledger.length + 1 ∧
    position_after (append_transaction ledger row) row.portfolio row.ticker < 0 := by
  constructor
  · simp [append_transaction]
  · have h := position_after_append_self ledger row
    have hq : signed_qty row = -row.quantity := by simp [signed_qty, hside]
    rw [append_transaction, h, hq]
    linarith

/-- Witness for C1's amended claim: selling 5 AAPL from an empty ledger. -/
theorem c1_amended_oversell_persisted_witness :
    (append_transaction [] ⟨1, "Conservateur", "AAPL", "SELL", 5, 10, 0⟩).length = 1 ∧
    position_after (append_transaction [] ⟨1, "Conservateur", "AAPL", "SELL", 5, 10, 0⟩)
      "Conservateur" "AAPL" < 0 :=
  c1_amended_oversell_persisted [] ⟨1, "Conservateur", "AAPL", "SELL", 5, 10, 0⟩ rfl
    (by norm_num [position_after])

/-! ### C8 -/

/-- C8 counterexample: a row with non-positive quantity and an unknown kind
is persisted by `append_transaction` — it is not rejected with a
`ValidationError` (no validation code exists). -/
theorem c8_malformed_row_persisted :
    (⟨1, "P", "X", "FOO", -3, 10, 0⟩ : Tx).quantity ≤ 0 ∧
    (⟨1, "P", "X", "FOO", -3, 10, 0⟩ : Tx).side ≠ "BUY" ∧
    (⟨1, "P", "X", "FOO", -3, 10, 0⟩ : Tx).side ≠ "SELL" ∧
    append_transaction [] ⟨1, "P", "X", "FOO", -3, 10, 0⟩ = [⟨1, "P", "X", "FOO", -3, 10, 0⟩] := by
  refine ⟨by norm_num, by decide, by decide, rfl⟩

/-- C8 amended: `append_transaction` validates nothing — every submitted row,
even one with a non-positive quantity and a side that is neither BUY nor
SELL, is appended to the ledger and persisted. -/
theorem c8_amended_no_validation (ledger : List Tx) (row : Tx)
    (hqty : row.quantity ≤ 0) (hside : row.side ≠ "BUY" ∧ row.side ≠ "SELL") :
    row ∈ append_transaction ledger row ∧
    (append_transaction ledger row).length = ledger.length + 1 := by
  exact ⟨by simp [append_transaction], by simp [append_transaction]⟩

/-- Witness for C8's amended claim at a row with quantity −3 and side FOO. -/
theorem c8_amended_no_validation_witness :
    (⟨1, "P", "X", "FOO", -3, 10, 0⟩ : Tx) ∈ append_transaction [] ⟨1, "P", "X", "FOO", -3, 10, 0⟩ ∧
    (append_transaction [] (⟨1, "P", "X", "FOO", -3, 10, 0⟩ : Tx)).length = 1 :=
  c8_amended_no_validation [] ⟨1, "P", "X", "FOO", -3, 10, 0⟩ (by norm_num) ⟨by decide, by decide⟩

/-! ### C3 -/

theorem sum_map_ite_unique (l : List Nat) (hl : l.Nodup) (a : Nat) (c : ℚ) :
    (l.map (fun e => if a = e then c else 0)).sum = if a ∈ l then c else 0 := by
  induction l with
  | nil => simp
  | cons b t ih =>
    simp only [List.nodup_cons] at hl
    simp only [List.map_cons, List.sum_cons, ih hl.2, List.mem_cons]
    by_cases hab : a = b
    · subst hab
      simp [hl.1]
    · simp [hab, Ne.symm hab]

theorem daily_signed_qty_cons (t : Tx) (ts : List Tx) (pf tkr : String) (e : Nat) :
    daily_signed_qty (t :: ts) pf tkr e =
      (if t.portfolio = pf ∧ t.ticker = tkr ∧ t.date = e then signed_qty t else 0)
        + daily_signed_qty ts pf tkr e := by
  simp only [daily_signed_qty, List.filter_cons]
  by_cases h : t.portfolio = pf ∧ t.ticker = tkr ∧ t.date = e
  · simp [h.1, h.2.1, h.2.2]
  · have : (t.portfolio == pf && (t.ticker == tkr && t.date == e)) = false := by
      rcases Decidable.not_and_iff_or_not.mp h with h1 | h23
      · simp [h1]
      · rcases Decidable.not_and_iff_or_not.mp h23 with h2 | h3
        · simp [h2]
        · simp [h3]
    simp only [Bool.and_assoc, this, Bool.false_eq_true, if_neg h, ite_false, zero_add]

theorem daily_signed_qty_eq_zero (trades : List Tx) (pf tkr : String) (e : Nat)
    (h : ∀ t ∈ trades, ¬(t.portfolio = pf ∧ t.ticker = tkr ∧ t.date = e)) :
    daily_signed_qty trades pf tkr e = 0 := by
  induction trades with
  | nil => simp [daily_signed_qty]
  | cons t ts ih =>
    rw [daily_signed_qty_cons, if_neg (h t (List.mem_cons_self t ts)),
      ih (fun u hu => h u (List.mem_cons_of_mem t hu)), zero_add]

/-- C3 counterexample: with the business-day grid `[2, 3]` (day 1 is not a
grid day), a BUY of 5 shares dated day 1 is dropped by the reindex, so the
reconstructed share count on day 3 is 0 — while the cumulative sum of signed
quantities over all days ≤ 3 is 5. -/
theorem c3_off_grid_trade_dropped :
    daily_positions [⟨1, "P", "A", "BUY", 5, 10, 0⟩] [2, 3] "P" "A" 3 = 0 ∧
    spec_cumulative_signed [⟨1, "P", "A", "BUY", 5, 10, 0⟩] "P" "A" 3 = 5 ∧
    (0 : ℚ) ≠ 5 := by
  refine ⟨?_, ?_, by norm_num⟩
  · simp +decide [daily_positions, daily_signed_qty, signed_qty, List.filter]
  · simp +decide [spec_cumulative_signed, signed_qty, List.filter]

/-- C3 amended: on a duplicate-free daily grid, the share count of
(pf, tkr) at day `d` is the sum of the signed quantities (+quantity for BUY,
−quantity otherwise) of the trades of (pf, tkr) whose date lies ON the grid
and is ≤ d — same-day rows aggregate by summation, and trades dated off the
grid are dropped; moreover days with no trade inherit the previous count (a
step function). -/
theorem c3_amended_positions_cumsum (trades : List Tx) (all_days : List Nat)
    (pf tkr : String) (hnd : all_days.Nodup) :
    (∀ d, daily_positions trades all_days pf tkr d =
        ((trades.filter (fun t => t.portfolio == pf && t.ticker == tkr
            && all_days.contains t.date && decide (t.date ≤ d))).map signed_qty).sum) ∧
    (∀ d1 d2, d1 ≤ d2 →
        (∀ t ∈ trades, t.portfolio = pf → t.ticker = tkr → ¬(d1 < t.date ∧ t.date ≤ d2)) →
        daily_positions trades all_days pf tkr d2 = daily_positions trades all_days pf tkr d1) := by
  constructor
  · intro d
    induction trades with
    | nil => simp [daily_positions, daily_signed_qty]
    | cons t ts ih =>
      have step : daily_positions (t :: ts) all_days pf tkr d =
          ((all_days.filter (fun e => e ≤ d)).map
              (fun e => if t.portfolio = pf ∧ t.ticker = tkr ∧ t.date = e then signed_qty t else 0)).sum
            + daily_positions ts all_days pf tkr d := by
        simp only [daily_positions]
        rw [← sum_map_add]
        have hfe : (fun e => daily_signed_qty (t :: ts) pf tkr e)
            = fun e => (if t.portfolio = pf ∧ t.ticker = tkr ∧ t.date = e
                then signed_qty t else 0) + daily_signed_qty ts pf tkr e :=
          funext (daily_signed_qty_cons t ts pf tkr)
        rw [hfe]
      rw [step, ih, List.filter_cons]
      by_cases hmatch : t.portfolio = pf ∧ t.ticker = tkr
      · have hrw : ∀ e, (t.portfolio = pf ∧ t.ticker = tkr ∧ t.date = e)
            = (t.date = e) := by
          intro e
          simp [hmatch.1, hmatch.2]
        simp only [hrw]
        rw [sum_map_ite_unique _ (hnd.filter _)]
        by_cases hcond : t.date ∈ all_days ∧ t.date ≤ d
        · have hmem : t.date ∈ all_days.filter (fun e => e ≤ d) := by
            rw [List.mem_filter]
            exact ⟨hcond.1, by simpa using hcond.2⟩
          have hb : (t.portfolio == pf && t.ticker == tkr
              && all_days.contains t.date && decide (t.date ≤ d)) = true := by
            simp [hmatch.1, hmatch.2, hcond.2, hcond.1]
          rw [if_pos hmem, hb]
          simp
        · have hnot : t.date ∉ all_days.filter (fun e => e ≤ d) := by
            rw [List.mem_filter]
            intro hco
            exact hcond ⟨hco.1, by simpa using hco.2⟩
          have hb : (t.portfolio == pf && t.ticker == tkr
              && all_days.contains t.date && decide (t.date ≤ d)) = false := by
            rcases Decidable.not_and_iff_or_not.mp hcond with h1 | h2
            · simp [h1]
            · simp [h2]
          rw [if_neg hnot, hb]
          simp
      · have hz : ∀ e, (if t.portfolio = pf ∧ t.ticker = tkr ∧ t.date = e
            then signed_qty t else 0) = (0 : ℚ) := by
          intro e
          rw [if_neg]
          intro hc
          exact hmatch ⟨hc.1, hc.2.1⟩
        simp only [hz]
        have hb : (t.portfolio == pf && t.ticker == tkr
            && all_days.contains t.date && decide (t.date ≤ d)) = false := by
          rcases Decidable.not_and_iff_or_not.mp hmatch with h1 | h2
          · simp [h1]
          · simp [h2]
        rw [hb]
        simp
  · intro d1 d2 hle hwin
    induction all_days with
    | nil => simp [daily_positions]
    | cons e rest ih =>
      have hnd' : rest.Nodup := (List.nodup_cons.mp hnd).2
      simp only [daily_positions, List.filter_cons] at *
      by_cases h1 : e ≤ d1
      · have h2 : e ≤ d2 := le_trans h1 hle
        rw [if_pos (by simpa using h2), if_pos (by simpa using h1)]
        simp only [List.map_cons, List.sum_cons]
        rw [ih hnd']
      · by_cases h2 : e ≤ d2
        · have hz : daily_signed_qty trades pf tkr e = 0 := by
            apply daily_signed_qty_eq_zero
            intro t ht hc
            exact hwin t ht hc.1 hc.2.1 (by rw [hc.2.2]; exact ⟨lt_of_not_le h1, h2⟩)
          rw [if_pos (by simpa using h2), if_neg (by simpa using h1)]
          simp only [List.map_cons, List.sum_cons, hz, zero_add]
          rw [ih hnd']
        · rw [if_neg (by simpa using h2), if_neg (by simpa using h1)]
          rw [ih hnd']

/-- Witness for C3's amended claim: a BUY of 5 on day 1 over grid [1, 2, 3];
the cumulative formula at day 3, and day 3 inherits day 1's count because no
trade falls in (1, 3]. -/
theorem c3_amended_positions_cumsum_witness :
    daily_positions [⟨1, "P", "A", "BUY", 5, 10, 0⟩] [1, 2, 3] "P" "A" 3 =
      ((([⟨1, "P", "A", "BUY", 5, 10, 0⟩] : List Tx).filter
          (fun t => t.portfolio == "P" && t.ticker == "A"
            && [1, 2, 3].contains t.date && decide (t.date ≤ 3))).map signed_qty).sum ∧
    daily_positions [⟨1, "P", "A", "BUY", 5, 10, 0⟩] [1, 2, 3] "P" "A" 3 =
      daily_positions [⟨1, "P", "A", "BUY", 5, 10, 0⟩] [1, 2, 3] "P" "A" 1 :=
  ⟨(c3_amended_positions_cumsum [⟨1, "P", "A", "BUY", 5, 10, 0⟩] [1, 2, 3] "P" "A" (by decide)).1 3,
   (c3_amended_positions_cumsum [⟨1, "P", "A", "BUY", 5, 10, 0⟩] [1, 2, 3] "P" "A" (by decide)).2
     1 3 (by decide) (by decide)⟩

/-! ### C5 -/

/-- C5 counterexample: on grid `[1, 3]`, a 4:1 split dated day 2 (absent from
the grid) is silently dropped: with one share held throughout, the adjusted
count on day 3 is still 1, while the claim demands it be multiplied by the
factor: `spec_split_mult` gives 4. -/
theorem c5_off_grid_split_dropped :
    apply_splits_to_shares [("A", ⟨[], [], [(2, 4)]⟩)] [1, 3] (fun _ _ _ => 1) "P" "A" 3 = 1 ∧
    spec_split_mult [(2, 4)] 3 * (1 : ℚ) = 4 ∧
    (1 : ℚ) ≠ 4 := by
  refine ⟨?_, ?_, by norm_num⟩
  · simp +decide [apply_splits_to_shares, getHist, split_mult, List.filter, List.find?]
  · norm_num [spec_split_mult, List.filter]

/-- C5 amended: a split event `(D, F)` with `F > 0` whose date lies ON the
grid multiplies the adjusted share count by `F` on every day `d ≥ D`,
compounding multiplicatively with the remaining split events; on days before
`D`, and for a split whose date is absent from the grid, the event has no
effect at all (it is dropped, it does not take effect from the next grid
day). -/
theorem c5_amended_split_on_grid (C V : List (Nat × ℚ)) (all_days : List Nat)
    (shares : String → String → Nat → ℚ) (pf tkr : String)
    (D : Nat) (F : ℚ) (rest : List (Nat × ℚ)) (d : Nat) (hF : 0 < F) :
    (D ∈ all_days ∧ D ≤ d →
      apply_splits_to_shares [(tkr, ⟨C, V, (D, F) :: rest⟩)] all_days shares pf tkr d
        = F * apply_splits_to_shares [(tkr, ⟨C, V, rest⟩)] all_days shares pf tkr d) ∧
    (D ∉ all_days ∨ d < D →
      apply_splits_to_shares [(tkr, ⟨C, V, (D, F) :: rest⟩)] all_days shares pf tkr d
        = apply_splits_to_shares [(tkr, ⟨C, V, rest⟩)] all_days shares pf tkr d) := by
  have hhist : getHist [(tkr, (⟨C, V, (D, F) :: rest⟩ : Hist))] tkr
      = some ⟨C, V, (D, F) :: rest⟩ := by
    simp [getHist]
  have hhist' : getHist [(tkr, (⟨C, V, rest⟩ : Hist))] tkr = some ⟨C, V, rest⟩ := by
    simp [getHist]
  constructor
  · rintro ⟨hmem, hle⟩
    simp only [apply_splits_to_shares, hhist, hhist']
    have hcons : split_mult all_days ((D, F) :: rest) d = F * split_mult all_days rest d := by
      simp only [split_mult, List.filter_cons]
      have : (decide (0 < (D, F).2) && all_days.contains (D, F).1 && decide ((D, F).1 ≤ d))
          = true := by
        simp [hF, hmem, hle]
      rw [this]
      simp
    rw [hcons]
    ring
  · intro hdrop
    simp only [apply_splits_to_shares, hhist, hhist']
    have hcons : split_mult all_days ((D, F) :: rest) d = split_mult all_days rest d := by
      simp only [split_mult, List.filter_cons]
      have : (decide (0 < (D, F).2) && all_days.contains (D, F).1 && decide ((D, F).1 ≤ d))
          = false := by
        rcases hdrop with h | h
        · simp [h]
        · simp [Nat.not_le_of_lt h]
      rw [this]
      simp
    rw [hcons]

/-- Witness for C5's amended claim: a 2:1 split on grid day 2 doubles the
count on day 3 and leaves day 1 untouched. -/
theorem c5_amended_split_on_grid_witness :
    apply_splits_to_shares [("A", ⟨[], [], [(2, 2)]⟩)] [1, 2, 3] (fun _ _ _ => 1) "P" "A" 3
      = 2 * apply_splits_to_shares [("A", ⟨[], [], []⟩)] [1, 2, 3] (fun _ _ _ => 1) "P" "A" 3 ∧
    apply_splits_to_shares [("A", ⟨[], [], [(2, 2)]⟩)] [1, 2, 3] (fun _ _ _ => 1) "P" "A" 1
      = apply_splits_to_shares [("A", ⟨[], [], []⟩)] [1, 2, 3] (fun _ _ _ => 1) "P" "A" 1 :=
  ⟨(c5_amended_split_on_grid [] [] [1, 2, 3] (fun _ _ _ => 1) "P" "A" 2 2 [] 3
      (by norm_num)).1 ⟨by decide, by decide⟩,
   (c5_amended_split_on_grid [] [] [1, 2, 3] (fun _ _ _ => 1) "P" "A" 2 2 [] 1
      (by norm_num)).2 (Or.inr (by decide))⟩

/-! ### C6 -/

/-- C6: auto-credit dividend mode — with shares held `s > 0` of a ticker on a
grid day `d` carrying a dividend of `dps > 0` per share, the portfolio's
dividend cash flow on day `d` is exactly `s * dps`, and it is 0 on every
other day. -/
theorem c6_dividend_credit (all_days : List Nat) (pf tkr : String)
    (C S : List (Nat × ℚ)) (d : Nat) (dps : ℚ)
    (shares_adj : String → String → Nat → ℚ)
    (hd : d ∈ all_days) (hdps : 0 < dps) (hq : 0 < shares_adj pf tkr d) :
    dividends_cashflows [(pf, tkr)] [(tkr, ⟨C, [(d, dps)], S⟩)] all_days shares_adj pf d
      = shares_adj pf tkr d * dps ∧
    ∀ e, e ≠ d →
      dividends_cashflows [(pf, tkr)] [(tkr, ⟨C, [(d, dps)], S⟩)] all_days shares_adj pf e = 0 := by
  have hhist : getHist [(tkr, (⟨C, [(d, dps)], S⟩ : Hist))] tkr = some ⟨C, [(d, dps)], S⟩ := by
    simp [getHist]
  constructor
  · simp only [dividends_cashflows, List.foldl_cons, List.foldl_nil, if_pos rfl, hhist]
    have hfil : ((⟨C, [(d, dps)], S⟩ : Hist).dividends.filter
        (fun e => decide (0 < e.2) && e.1 == d && all_days.contains d)) = [(d, dps)] := by
      simp [List.filter_cons, hdps, hd]
    rw [hfil]
    simp [hq]
  · intro e he
    simp only [dividends_cashflows, List.foldl_cons, List.foldl_nil, if_pos rfl, hhist]
    have hfil : ((⟨C, [(d, dps)], S⟩ : Hist).dividends.filter
        (fun x => decide (0 < x.2) && x.1 == e && all_days.contains e)) = [] := by
      simp only [List.filter_cons, List.filter_nil]
      have : ((d, dps).1 == e) = false := by simp [Ne.symm he]
      simp [this]
    rw [hfil]
    simp

/-- Witness for C6, the spec's Scenario B: 10 shares held on a day paying a
$1.00/share dividend credit exactly $10.00 that day and nothing on day 4. -/
theorem c6_dividend_credit_witness :
    dividends_cashflows [("P", "AAPL")] [("AAPL", ⟨[], [(5, 1)], []⟩)] [4, 5, 6]
      (fun _ _ _ => 10) "P" 5 = 10 * 1 ∧
    dividends_cashflows [("P", "AAPL")] [("AAPL", ⟨[], [(5, 1)], []⟩)] [4, 5, 6]
      (fun _ _ _ => 10) "P" 4 = 0 :=
  ⟨(c6_dividend_credit [4, 5, 6] "P" "AAPL" [] [] 5 1 (fun _ _ _ => 10)
      (by decide) (by norm_num) (by norm_num)).1,
   (c6_dividend_credit [4, 5, 6] "P" "AAPL" [] [] 5 1 (fun _ _ _ => 10)
      (by decide) (by norm_num) (by norm_num)).2 4 (by decide)⟩

/-! ### C4 -/

theorem filterMap_filter_eq {α β : Type} (p : α → Bool) (f : α → Option β) (l : List α) :
    (l.filter p).filterMap f = l.filterMap (fun a => if p a then f a else none) := by
  induction l with
  | nil => rfl
  | cons a t ih =>
    by_cases h : p a
    · simp only [List.filter_cons, h, ite_true, List.filterMap_cons, ih]
    · simp only [List.filter_cons, h, Bool.false_eq_true, ite_false, List.filterMap_cons, ih]

theorem filterMap_congr_mem {α β : Type} {l : List α} {f g : α → Option β}
    (h : ∀ a ∈ l, f a = g a) : l.filterMap f = l.filterMap g := by
  induction l with
  | nil => rfl
  | cons a t ih =>
    rw [List.filterMap_cons, List.filterMap_cons, h a (List.mem_cons_self a t),
      ih (fun b hb => h b (List.mem_cons_of_mem a hb))]

theorem pvs_foldl_isSome (histories : List (String × Hist)) (all_days : List Nat)
    (shares_adj : String → String → Nat → ℚ) (pf : String) (d : Nat) :
    ∀ (columns : List (String × String)) (init : Option ℚ), init.isSome →
      (∀ c ∈ columns, c.1 = pf → ∀ h, getHist histories c.2 = some h →
        (ffill_close all_days h.close d).isSome) →
      (columns.foldl
        (fun acc c =>
          if c.1 = pf then
            match getHist histories c.2 with
            | none => acc
            | some h => nanAdd acc (nanSMul (shares_adj c.1 c.2 d) (ffill_close all_days h.close d))
          else acc)
        init).isSome := by
  intro columns
  induction columns with
  | nil => intro init hinit _; simpa using hinit
  | cons c t ih =>
    intro init hinit hcols
    rw [List.foldl_cons]
    apply ih _ _ (fun b hb => hcols b (List.mem_cons_of_mem c hb))
    by_cases hpf : c.1 = pf
    · rw [if_pos hpf]
      cases hg : getHist histories c.2 with
      | none => simpa using hinit
      | some h =>
        have hf := hcols c (List.mem_cons_self c t) hpf h hg
        obtain ⟨v, hv⟩ := Option.isSome_iff_exists.mp hf
        obtain ⟨w, hw⟩ := Option.isSome_iff_exists.mp hinit
        show (nanAdd init (nanSMul (shares_adj c.1 c.2 d) (ffill_close all_days h.close d))).isSome
          = true
        rw [hv, hw]
        simp [nanAdd, nanSMul]
    · rw [if_neg hpf]; simpa using hinit

/-- C4 counterexample: ticker A has a close only from day 2 on (it is in
`histories`, hence not skipped); on grid `[1, 2]` the forward fill leaves day
1's price NaN, and `0.0 * NaN + 0.0` is NaN, so the whole portfolio valuation
on day 1 is undefined — even though the position is 0 shares — while day 2
evaluates fine.  One ticker with a leading price gap thus does make the
valuation undefined. -/
theorem c4_leading_gap_poisons_value :
    portfolio_value_series [("P", "A")] [("A", ⟨[(2, 10)], [], []⟩)] [1, 2]
      (fun _ _ _ => 0) "P" 1 = none ∧
    portfolio_value_series [("P", "A")] [("A", ⟨[(2, 10)], [], []⟩)] [1, 2]
      (fun _ _ _ => 0) "P" 2 = some 0 := by
  constructor
  · simp +decide [portfolio_value_series, getHist, ffill_close, cellAt, nanAdd, nanSMul,
      List.filter, List.find?, List.filterMap, List.foldl]
  · simp +decide [portfolio_value_series, getHist, ffill_close, cellAt, nanAdd, nanSMul,
      List.filter, List.find?, List.filterMap, List.foldl]

/-- C4 amended: (i) a day with no close inherits the forward-filled price of
the last prior grid day with one; (ii) a ticker absent from `histories` (no
close ever fetched) is skipped, contributing zero; (iii) the portfolio value
at day `d` is defined whenever every held ticker that is in `histories` has
at least one close on a grid day ≤ d — but (per the counterexample) a ticker
in `histories` whose first close comes after day `d` leaves the whole
portfolio's value NaN at `d`. -/
theorem c4_amended_valuation (all_days : List Nat) :
    (∀ (close : List (Nat × ℚ)) (d1 d2 : Nat), d1 ≤ d2 →
        (∀ e ∈ all_days, d1 < e → e ≤ d2 → cellAt close e = none) →
        ffill_close all_days close d2 = ffill_close all_days close d1) ∧
    (∀ (c : String × String) (columns : List (String × String))
        (histories : List (String × Hist)) (shares_adj : String → String → Nat → ℚ)
        (pf : String) (d : Nat), getHist histories c.2 = none →
        portfolio_value_series (c :: columns) histories all_days shares_adj pf d
          = portfolio_value_series columns histories all_days shares_adj pf d) ∧
    (∀ (columns : List (String × String)) (histories : List (String × Hist))
        (shares_adj : String → String → Nat → ℚ) (pf : String) (d : Nat),
        (∀ c ∈ columns, c.1 = pf → ∀ h, getHist histories c.2 = some h →
          (ffill_close all_days h.close d).isSome) →
        (portfolio_value_series columns histories all_days shares_adj pf d).isSome) := by
  refine ⟨?_, ?_, ?_⟩
  · intro close d1 d2 hle hgap
    simp only [ffill_close, filterMap_filter_eq]
    congr 1
    apply filterMap_congr_mem
    intro e he
    by_cases h1 : e ≤ d1
    · have h2 : e ≤ d2 := le_trans h1 hle
      simp [h1, h2]
    · by_cases h2 : e ≤ d2
      · rw [if_pos (by simpa using h2), if_neg (by simpa using h1),
          hgap e he (lt_of_not_le h1) h2]
      · rw [if_neg (by simpa using h2), if_neg (by simpa using h1)]
  · intro c columns histories shares_adj pf d hnone
    simp only [portfolio_value_series, List.foldl_cons, hnone]
    by_cases hpf : c.1 = pf
    · rw [if_pos hpf]
    · rw [if_neg hpf]
  · intro columns histories shares_adj pf d hcols
    simp only [portfolio_value_series]
    exact pvs_foldl_isSome histories all_days shares_adj pf d columns (some 0) rfl hcols

/-- Witness for C4's amended claim on grid [1, 2] with a close only at day 1:
day 2 forward-fills day 1's price; a column for an unfetched ticker B drops
out; and the valuation is defined at day 2. -/
theorem c4_amended_valuation_witness :
    ffill_close [1, 2] [(1, (5 : ℚ))] 2 = ffill_close [1, 2] [(1, (5 : ℚ))] 1 ∧
    portfolio_value_series [("P", "B")] [("A", ⟨[(1, 5)], [], []⟩)] [1, 2]
      (fun _ _ _ => 3) "P" 2
      = portfolio_value_series [] [("A", ⟨[(1, 5)], [], []⟩)] [1, 2] (fun _ _ _ => 3) "P" 2 ∧
    (portfolio_value_series [("P", "A")] [("A", ⟨[(1, 5)], [], []⟩)] [1, 2]
      (fun _ _ _ => 3) "P" 2).isSome :=
  ⟨(c4_amended_valuation [1, 2]).1 [(1, 5)] 1 2 (by decide)
      (by intro e he h1 h2; interval_cases e <;> simp_all <;> rfl),
   (c4_amended_valuation [1, 2]).2.1 ("P", "B") [] [("A", ⟨[(1, 5)], [], []⟩)]
      (fun _ _ _ => 3) "P" 2 (by simp +decide [getHist]),
   (c4_amended_valuation [1, 2]).2.2 [("P", "A")] [("A", ⟨[(1, 5)], [], []⟩)]
      (fun _ _ _ => 3) "P" 2 (by
        intro c hc hpf h hg
        simp only [List.mem_singleton] at hc
        subst hc
        simp [getHist] at hg
        subst hg
        simp +decide [ffill_close, cellAt, List.filter, List.filterMap])⟩

/-! ### C7 -/

theorem filterMap_eq_singleton {l : List Nat} (hl : l.Nodup) {a : Nat} (ha : a ∈ l)
    {f : Nat → Option ℚ} {v : ℚ} (hfa : f a = some v)
    (hother : ∀ e ∈ l, e ≠ a → f e = none) : l.filterMap f = [v] := by
  induction l with
  | nil => cases ha
  | cons b t ih =>
    rw [List.nodup_cons] at hl
    rcases List.mem_cons.mp ha with hba | hat
    · subst hba
      rw [List.filterMap_cons, hfa]
      have ht : t.filterMap f = [] := by
        rw [List.filterMap_eq_nil_iff]
        intro e he
        exact hother e (List.mem_cons_of_mem a he) (fun hc => hl.1 (hc ▸ he))
      rw [ht]
    · have hb : f b = none := by
        apply hother b (List.mem_cons_self b t)
        intro hc
        exact hl.1 (hc ▸ hat)
      rw [List.filterMap_cons, hb]
      exact ih hl.2 hat (fun e he hne => hother e (List.mem_cons_of_mem b he) hne)

theorem head_filterMap_first {l : List Nat} (hsort : l.Pairwise (· < ·)) {d0 : Nat}
    (hd0 : d0 ∈ l) {f : Nat → Option ℚ} {c0 : ℚ} (hf : f d0 = some c0)
    (hbefore : ∀ e ∈ l, e < d0 → f e = none) : (l.filterMap f).head? = some c0 := by
  induction l with
  | nil => cases hd0
  | cons b t ih =>
    rw [List.pairwise_cons] at hsort
    rcases List.mem_cons.mp hd0 with hbd | hdt
    · subst hbd
      rw [List.filterMap_cons, hf]
      rfl
    · have hblt : b < d0 := hsort.1 d0 hdt
      have hb : f b = none := hbefore b (List.mem_cons_self b t) hblt
      rw [List.filterMap_cons, hb]
      exact ih hsort.2 hdt (fun e he hlt => hbefore e (List.mem_cons_of_mem b he) hlt)

theorem ffill_at_first_close {all_days : List Nat} (hsort : all_days.Pairwise (· < ·))
    {C : List (Nat × ℚ)} {d0 : Nat} {c0 : ℚ} (hd0 : d0 ∈ all_days)
    (hc : cellAt C d0 = some c0)
    (hbefore : ∀ e ∈ all_days, e < d0 → cellAt C e = none) :
    ffill_close all_days C d0 = some c0 := by
  have hnd : all_days.Nodup := hsort.imp (fun h => Nat.ne_of_lt h)
  have hsing : (all_days.filter (fun e => e ≤ d0)).filterMap (fun e => cellAt C e) = [c0] := by
    apply filterMap_eq_singleton (hnd.filter _) _ hc
    · intro e he hne
      obtain ⟨hmem, hle⟩ := List.mem_filter.mp he
      exact hbefore e hmem (lt_of_le_of_ne (by simpa using hle) hne)
    · rw [List.mem_filter]
      exact ⟨hd0, by simp⟩
  rw [ffill_close, hsing]
  rfl

/-- C7: one normalized benchmark column.  The column is empty (`none`) exactly
when the close series has no value on any grid day; otherwise, writing `d0`
for the first grid day carrying a close `c0 > 0` (the base day), the column
equals 100 at `d0`, and on every day its value is the forward-filled close
divided by `c0` times 100 — `norm[N] = close[N]/close[base] * 100`. -/
theorem c7_benchmark_normalization (all_days : List Nat) (C V S : List (Nat × ℚ))
    (b : String) (hsort : all_days.Pairwise (· < ·)) :
    (benchmark_col [(b, ⟨C, V, S⟩)] all_days b = none ↔
      all_days.filterMap (fun e => cellAt C e) = []) ∧
    (∀ d0 c0, d0 ∈ all_days → cellAt C d0 = some c0 → 0 < c0 →
      (∀ e ∈ all_days, e < d0 → cellAt C e = none) →
      (benchmark_col [(b, ⟨C, V, S⟩)] all_days b).map (fun f => f d0) = some (some 100) ∧
      (∀ d v, ffill_close all_days C d = some v →
        (benchmark_col [(b, ⟨C, V, S⟩)] all_days b).map (fun f => f d)
          = some (some (v / c0 * 100)))) := by
  have hhist : getHist [(b, (⟨C, V, S⟩ : Hist))] b = some ⟨C, V, S⟩ := by
    simp [getHist]
  constructor
  · rw [benchmark_col, hhist]
    cases hh : (all_days.filterMap (fun e => cellAt (⟨C, V, S⟩ : Hist).close e)).head? with
    | none =>
      simp only
      rw [hh]
      constructor
      · intro _
        exact List.head?_eq_none_iff.mp hh
      · intro _
        rfl
    | some base =>
      simp only
      rw [hh]
      constructor
      · intro hc
        cases hc
      · intro hc
        rw [hc] at hh
        cases hh
  · intro d0 c0 hd0 hc hpos hbefore
    have hhead : (all_days.filterMap (fun e => cellAt C e)).head? = some c0 :=
      head_filterMap_first hsort hd0 hc hbefore
    have hcol : benchmark_col [(b, ⟨C, V, S⟩)] all_days b
        = some (fun d => (ffill_close all_days C d).map (fun v => v / c0 * 100)) := by
      rw [benchmark_col, hhist]
      simp only
      rw [hhead]
    constructor
    · have hffill : ffill_close all_days C d0 = some c0 :=
        ffill_at_first_close hsort hd0 hc hbefore
      simp only [hcol, Option.map_some', hffill, div_self (ne_of_gt hpos), one_mul]
    · intro d v hv
      simp only [hcol, Option.map_some', hv]

/-- Witness for C7 on grid [1, 2] with closes 4 then 6: the column exists
(the no-value case is vacuous), equals 100 on day 1 and 6/4·100 = 150 on
day 2. -/
theorem c7_benchmark_normalization_witness :
    (benchmark_col [("SPY", ⟨[(1, 4), (2, 6)], [], []⟩)] [1, 2] "SPY").map (fun f => f 1)
      = some (some 100) ∧
    (benchmark_col [("SPY", ⟨[(1, 4), (2, 6)], [], []⟩)] [1, 2] "SPY").map (fun f => f 2)
      = some (some ((6 : ℚ) / 4 * 100)) :=
  ⟨((c7_benchmark_normalization [1, 2] [(1, 4), (2, 6)] [] [] "SPY" (by decide)).2
      1 4 (by decide) (by simp +decide [cellAt, List.find?]) (by norm_num)
      (by intro e he hlt; interval_cases e <;> simp_all)).1,
   ((c7_benchmark_normalization [1, 2] [(1, 4), (2, 6)] [] [] "SPY" (by decide)).2
      1 4 (by decide) (by simp +decide [cellAt, List.find?]) (by norm_num)
      (by intro e he hlt; interval_cases e <;> simp_all)).2
     2 6 (by simp +decide [ffill_close, cellAt, List.filter, List.filterMap, List.find?])⟩

end PortfolioLT
